import Mathlib

/-!
Search orchestration of `mmaccelsearch.c`.

A shallow embedding of `main` of `src/mmaccelsearch.c`: the sliding-window
scan over the Fourier frequency axis, the harmonic-summing stage loop inside
each window, and the refinement block that follows the scan.

Modelling conventions.

* C `double` values (`startr`, `lastr`, `nextr`, `obs.rlo`, `obs.highestbin`)
  are exact rationals; rounding is not modelled.
* `ACCEL_USELEN` and `ACCEL_DR` come from `accel.h`, which is not part of the
  sources at hand; they are parameters.  `ACCEL_USELEN` is a length (a count
  of grid points), hence a natural number; `ACCEL_DR` is a `double`.
* `int` counters (`stage`, `harm`, `harmtosum`, `ii`, `numcands`) are
  unbounded naturals; `1 << stage` is the unbounded shift.
* The collaborators `subharm_ffdot_plane`, `add_ffdotpows`,
  `search_ffdotpows`, `optimize_accelcand`, `sort_accelcands` and
  `calc_props` are parameters (`Externals`); the fixed `&obs` argument they
  all receive is left implicit in them.
* Every call to a collaborator is logged as an `Event`, in program order.
  Printing, timing, and the set-up and tear-down of the kernel table and of
  the observation record are not logged.
-/

namespace Mmaccelsearch

section Definitions

variable {Plane Cand D P : Type}

/-- The two `accel.h` constants the driver uses. -/
structure AccelConsts where
  ACCEL_USELEN : ℕ
  ACCEL_DR : ℚ

/-- The fields of `accelobs` that steer the control flow of `main`. -/
structure accelobs where
  rlo : ℚ
  highestbin : ℚ
  numharmstages : ℤ

/-- The two `ffdotpows *` variables of the search loop. -/
inductive PlaneVar where
  | fundamental
  | subharmonic
  deriving DecidableEq, Repr

/-- The collaborators called by `main`.  `Plane` stands for `ffdotpows`,
`Cand` for `accelcand`, `D` for `rderivs`, `P` for `fourierprops`.  The
kernel argument `&subharminfs[i][j]` of `subharm_ffdot_plane` is given by
its two indices.  `add_ffdotpows` returns the updated first argument, and
`optimize_accelcand` the updated candidate.  `derivs`, `hirs`, `hizs` read
the array fields of a candidate at an index. -/
structure Externals (Plane Cand D P : Type) where
  subharm_ffdot_plane : ℕ → ℕ → ℚ → ℚ → ℕ → ℕ → Plane
  add_ffdotpows : Plane → Plane → ℕ → ℕ → Plane
  search_ffdotpows : Plane → ℕ → List Cand → List Cand
  optimize_accelcand : Cand → Cand
  sort_accelcands : List Cand → List Cand
  calc_props : D → ℚ → ℚ → ℚ → P
  derivs : Cand → ℕ → D
  hirs : Cand → ℕ → ℚ
  hizs : Cand → ℕ → ℚ

/-- One logged call.  `subharm_ffdot_plane` records the variable that
receives the new plane and the six arguments; `search_ffdotpows` records the
plane, the harmonic order and the pool it is given; `add_ffdotpows` records
`harmtosum` and `harm` (its plane arguments are always `fundamental` and
`subharmonic`); `free_ffdotpows` records the variable released;
`calc_props` records its four value arguments and the index `ii` of the
record `props + ii` it fills; `chkfwrite` stands for the opening, writing
and closing of the candidate file (lines 171-173); `usage` for the call of
`usage` that comes before `exit(1)`. -/
inductive Event (Plane Cand D P : Type) where
  | usage
  | subharm_ffdot_plane (dst : PlaneVar) (numharm harmnum : ℕ) (startr lastr : ℚ)
      (stage idx : ℕ)
  | search_ffdotpows (fundamental : Plane) (numharm : ℕ) (cands : List Cand)
  | add_ffdotpows (numharm harmnum : ℕ)
  | free_ffdotpows (v : PlaneVar)
  | optimize_accelcand (cand : Cand)
  | sort_accelcands (cands : List Cand)
  | calc_props (d : D) (r z : ℚ) (w : ℚ) (ii : ℕ)
  | output_fundamentals (props : List P) (cands : List Cand)
  | output_harmonics (cands : List Cand)
  | chkfwrite (props : List P) (numcands : ℕ)

/-- The inner loop `for (harm=1; harm<harmtosum; harm+=2)` (lines 105-111),
entered at `harm`, with the current value of `*fundamental`.  Returns the
calls made and the final value of `*fundamental`. -/
def harmLoop (ext : Externals Plane Cand D P) (startr lastr : ℚ)
    (stage harmtosum harm : ℕ) (fundamental : Plane) :
    List (Event Plane Cand D P) × Plane :=
  if harm < harmtosum then
    let subharmonic := ext.subharm_ffdot_plane harmtosum harm startr lastr stage (harm - 1)
    let fundamental1 := ext.add_ffdotpows fundamental subharmonic harmtosum harm
    let rest := harmLoop ext startr lastr stage harmtosum (harm + 2) fundamental1
    (Event.subharm_ffdot_plane PlaneVar.subharmonic harmtosum harm startr lastr stage (harm - 1)
      :: Event.add_ffdotpows harmtosum harm
      :: Event.free_ffdotpows PlaneVar.subharmonic
      :: rest.1, rest.2)
  else ([], fundamental)
termination_by harmtosum - harm

/-- The stage loop `for (stage=1; stage<obs.numharmstages; stage++)`
(lines 103-113), entered at `stage`.  Returns the calls made, the final
value of `*fundamental` and the final pool. -/
def stageLoop (ext : Externals Plane Cand D P) (obs : accelobs) (startr lastr : ℚ)
    (stage : ℕ) (fundamental : Plane) (cands : List Cand) :
    List (Event Plane Cand D P) × Plane × List Cand :=
  if (stage : ℤ) < obs.numharmstages then
    let harmtosum := 1 <<< stage
    let inner := harmLoop ext startr lastr stage harmtosum 1 fundamental
    let cands1 := ext.search_ffdotpows inner.2 harmtosum cands
    let rest := stageLoop ext obs startr lastr (stage + 1) inner.2 cands1
    (inner.1 ++ Event.search_ffdotpows inner.2 harmtosum cands :: rest.1, rest.2)
  else ([], fundamental, cands)
termination_by (obs.numharmstages - stage).toNat
decreasing_by omega

/-- What one iteration of the search loop leaves behind: the values of
`startr` and `lastr` during the iteration and the calls it made. -/
structure WindowLog (Plane Cand D P : Type) where
  startr : ℚ
  lastr : ℚ
  events : List (Event Plane Cand D P)

/-- The body of the search loop (lines 90-116) run at `startr` with pool
`cands`.  Returns the log of the iteration, the new `startr` (`nextr`) and
the new pool. -/
def searchWindow (ext : Externals Plane Cand D P) (c : AccelConsts) (obs : accelobs)
    (startr : ℚ) (cands : List Cand) : WindowLog Plane Cand D P × ℚ × List Cand :=
  let nextr := startr + (c.ACCEL_USELEN : ℚ) * c.ACCEL_DR
  let lastr := nextr - c.ACCEL_DR
  let fundamental := ext.subharm_ffdot_plane 1 1 startr lastr 0 0
  let cands1 := ext.search_ffdotpows fundamental 1 cands
  let header : List (Event Plane Cand D P) :=
    [Event.subharm_ffdot_plane PlaneVar.fundamental 1 1 startr lastr 0 0,
     Event.search_ffdotpows fundamental 1 cands]
  if obs.numharmstages > 1 then
    let st := stageLoop ext obs startr lastr 1 fundamental cands1
    (⟨startr, lastr, header ++ st.1 ++ [Event.free_ffdotpows PlaneVar.fundamental]⟩,
      nextr, st.2.2)
  else
    (⟨startr, lastr, header ++ [Event.free_ffdotpows PlaneVar.fundamental]⟩, nextr, cands1)

/-- The state of the search loop after some iterations: the logs of the
iterations run so far, the pool, the current `startr`, and whether the loop
guard has been found false (the loop has been left). -/
structure ScanResult (Plane Cand D P : Type) where
  windows : List (WindowLog Plane Cand D P)
  cands : List Cand
  startr : ℚ
  exited : Bool

/-- The search loop `while (startr + ACCEL_USELEN * ACCEL_DR < obs.highestbin)`
(lines 89-117), run from `startr` with pool `cands` for at most `fuel`
iterations. -/
def searchLoop (ext : Externals Plane Cand D P) (c : AccelConsts) (obs : accelobs) :
    ℕ → ℚ → List Cand → ScanResult Plane Cand D P
  | 0, startr, cands =>
    if startr + (c.ACCEL_USELEN : ℚ) * c.ACCEL_DR < obs.highestbin then
      ⟨[], cands, startr, false⟩
    else ⟨[], cands, startr, true⟩
  | fuel + 1, startr, cands =>
    if startr + (c.ACCEL_USELEN : ℚ) * c.ACCEL_DR < obs.highestbin then
      let w := searchWindow ext c obs startr cands
      let rest := searchLoop ext c obs fuel w.2.1 w.2.2
      ⟨w.1 :: rest.windows, rest.cands, rest.startr, rest.exited⟩
    else ⟨[], cands, startr, true⟩

/-- Ways in which a run of the model stops without an exit status. -/
inductive Fault where
  | outOfFuel
  | nullDeref
  deriving DecidableEq, Repr

/-- The first refinement loop (lines 138-143): `numcands` steps along
`listptr`, each handing `listptr->data` to `optimize_accelcand`, which
updates the candidate in place.  Returns the calls made and the list as it
stands afterwards; stepping past the end of the list is a fault. -/
def optimizeLoop (ext : Externals Plane Cand D P) :
    ℕ → List Cand → Except Fault (List (Event Plane Cand D P) × List Cand)
  | 0, listptr => Except.ok ([], listptr)
  | _ + 1, [] => Except.error Fault.nullDeref
  | n + 1, cand :: next =>
    match optimizeLoop ext n next with
    | Except.ok rest =>
      Except.ok (Event.optimize_accelcand cand :: rest.1,
        ext.optimize_accelcand cand :: rest.2)
    | Except.error e => Except.error e

/-- The second refinement loop (lines 154-159), entered at index `ii` with
`numcands - ii = n` steps to go: each step calls `calc_props` on element 0
of the `derivs`, `hirs` and `hizs` arrays of `listptr->data` and stores the
result at `props + ii`.  Returns the calls made and the records stored, in
index order. -/
def calcPropsLoop (ext : Externals Plane Cand D P) :
    ℕ → ℕ → List Cand → Except Fault (List (Event Plane Cand D P) × List P)
  | 0, _, _ => Except.ok ([], [])
  | _ + 1, _, [] => Except.error Fault.nullDeref
  | n + 1, ii, cand :: next =>
    match calcPropsLoop ext n (ii + 1) next with
    | Except.ok rest =>
      Except.ok (Event.calc_props (ext.derivs cand 0) (ext.hirs cand 0) (ext.hizs cand 0) 0 ii
          :: rest.1,
        ext.calc_props (ext.derivs cand 0) (ext.hirs cand 0) (ext.hizs cand 0) 0 :: rest.2)
    | Except.error e => Except.error e

/-- What the refinement block hands on: the calls it made, the final pool
and the property records. -/
structure RefineResult (Plane Cand D P : Type) where
  events : List (Event Plane Cand D P)
  cands : List Cand
  props : List P

/-- The refinement block (lines 133-179) run on the pool left by the scan. -/
def refineBlock (ext : Externals Plane Cand D P) (cands : List Cand) :
    Except Fault (RefineResult Plane Cand D P) :=
  let numcands := cands.length
  if numcands ≠ 0 then
    match optimizeLoop ext numcands cands with
    | Except.error e => Except.error e
    | Except.ok opt =>
      let sorted := ext.sort_accelcands opt.2
      match calcPropsLoop ext numcands 0 sorted with
      | Except.error e => Except.error e
      | Except.ok cp =>
        Except.ok ⟨opt.1 ++ Event.sort_accelcands opt.2 :: cp.1 ++
            [Event.output_fundamentals cp.2 sorted, Event.output_harmonics sorted,
             Event.chkfwrite cp.2 numcands],
          sorted, cp.2⟩
  else Except.ok ⟨[], cands, []⟩

/-- All calls of a scan, in program order. -/
def scanEvents (ws : List (WindowLog Plane Cand D P)) : List (Event Plane Cand D P) :=
  (ws.map WindowLog.events).flatten

/-- The three calls the inner loop makes for one value of `harm`. -/
def harmCalls (startr lastr : ℚ) (stage harmtosum harm : ℕ) : List (Event Plane Cand D P) :=
  [Event.subharm_ffdot_plane PlaneVar.subharmonic harmtosum harm startr lastr stage (harm - 1),
   Event.add_ffdotpows harmtosum harm,
   Event.free_ffdotpows PlaneVar.subharmonic]

/-- The calls the inner loop makes during stage `stage`: one triple for each
`harm = 1 + 2 * i`, `i < 2 ^ (stage - 1)`, with `harmtosum = 2 ^ stage`. -/
def stageHarmCalls (startr lastr : ℚ) (stage : ℕ) : List (Event Plane Cand D P) :=
  (List.range (2 ^ (stage - 1))).flatMap
    (fun i => harmCalls startr lastr stage (2 ^ stage) (1 + 2 * i))

/-- Calls that concern a harmonic plane: its computation, its combination
into the fundamental, its release. -/
def Event.isSubharmonicCall : Event Plane Cand D P → Bool
  | Event.subharm_ffdot_plane PlaneVar.subharmonic _ _ _ _ _ _ => true
  | Event.add_ffdotpows _ _ => true
  | Event.free_ffdotpows PlaneVar.subharmonic => true
  | _ => false

/-- A sequence of `search_ffdotpows` calls that starts from pool `c0`, hands
each call the pool returned by the one before, and ends with pool `c1`. -/
def PoolChained (ext : Externals Plane Cand D P) :
    List Cand → List (Plane × ℕ × List Cand) → List Cand → Prop
  | c0, [], c1 => c1 = c0
  | c0, call :: rest, c1 =>
    call.2.2 = c0 ∧ PoolChained ext (ext.search_ffdotpows call.1 call.2.1 call.2.2) rest c1

/-- Collaborators over one-point planes, with candidates that are plain
numbers: the detector appends the harmonic order it was run at. -/
def unitExt : Externals Unit ℕ Unit Unit where
  subharm_ffdot_plane := fun _ _ _ _ _ _ => ()
  add_ffdotpows := fun _ _ _ _ => ()
  search_ffdotpows := fun _ n cs => cs ++ [n]
  optimize_accelcand := fun cand => cand
  sort_accelcands := fun cs => cs
  calc_props := fun _ _ _ _ => ()
  derivs := fun _ _ => ()
  hirs := fun _ _ => 0
  hizs := fun _ _ => 0

/-- Reference definition of the refinement pipeline, after section 4.4 of
the specification: optimise every pooled candidate, rank the whole pool,
then derive the properties of each ranked candidate from its fundamental
(index 0) only.  Returns the property records and the ranked pool. -/
def refinementSpec (ext : Externals Plane Cand D P) (pool : List Cand) : List P × List Cand :=
  let refined := pool.map ext.optimize_accelcand
  let ranked := ext.sort_accelcands refined
  (ranked.map (fun cand =>
      ext.calc_props (ext.derivs cand 0) (ext.hirs cand 0) (ext.hizs cand 0) 0),
    ranked)

/-- The numbers of live planes held by `fundamental` and by `subharmonic`
after one more call: `subharm_ffdot_plane` acquires a plane for the variable
it is assigned to, and `free_ffdotpows` releases the plane of the variable
it is given. -/
def liveStep (st : ℤ × ℤ) : Event Plane Cand D P → ℤ × ℤ
  | Event.subharm_ffdot_plane PlaneVar.fundamental _ _ _ _ _ _ => (st.1 + 1, st.2)
  | Event.subharm_ffdot_plane PlaneVar.subharmonic _ _ _ _ _ _ => (st.1, st.2 + 1)
  | Event.free_ffdotpows PlaneVar.fundamental => (st.1 - 1, st.2)
  | Event.free_ffdotpows PlaneVar.subharmonic => (st.1, st.2 - 1)
  | _ => st

/-- The numbers of live planes after a sequence of calls, from `st`. -/
def liveFrom (st : ℤ × ℤ) (evs : List (Event Plane Cand D P)) : ℤ × ℤ :=
  evs.foldl liveStep st

/-- At most one plane of each kind is live, and none is released twice. -/
def AtMostOneEach (st : ℤ × ℤ) : Prop :=
  0 ≤ st.1 ∧ st.1 ≤ 1 ∧ 0 ≤ st.2 ∧ st.2 ≤ 1

/-- After every call of the sequence `AtMostOneEach` holds. -/
def LiveBounded (st : ℤ × ℤ) : List (Event Plane Cand D P) → Prop
  | [] => True
  | e :: es => AtMostOneEach (liveStep st e) ∧ LiveBounded (liveStep st e) es

/-- The list starts with the release of the harmonic plane. -/
def startsWithFree : List (Event Plane Cand D P) → Bool
  | Event.free_ffdotpows PlaneVar.subharmonic :: _ => true
  | _ => false

/-- The list starts with `add_ffdotpows` at `(n, h)` followed by the
release of the harmonic plane. -/
def startsWithAddFree (n h : ℕ) : List (Event Plane Cand D P) → Bool
  | Event.add_ffdotpows n2 h2 :: es => decide (n2 = n) && decide (h2 = h) && startsWithFree es
  | _ => false

/-- Every computation of a harmonic plane is followed at once by its
combination and its release, and every combination by the release. -/
def releasedAtOnce : List (Event Plane Cand D P) → Bool
  | [] => true
  | Event.subharm_ffdot_plane PlaneVar.subharmonic n h _ _ _ _ :: es =>
    startsWithAddFree n h es && releasedAtOnce es
  | Event.add_ffdotpows _ _ :: es => startsWithFree es && releasedAtOnce es
  | _ :: es => releasedAtOnce es

end Definitions

section Proofs

variable {Plane Cand D P : Type}

theorem searchWindow_startr (ext : Externals Plane Cand D P) (c : AccelConsts) (obs : accelobs)
    (s : ℚ) (cs : List Cand) : (searchWindow ext c obs s cs).1.startr = s := by
  unfold searchWindow
  split <;> rfl

theorem searchWindow_lastr (ext : Externals Plane Cand D P) (c : AccelConsts) (obs : accelobs)
    (s : ℚ) (cs : List Cand) :
    (searchWindow ext c obs s cs).1.lastr = s + (c.ACCEL_USELEN : ℚ) * c.ACCEL_DR - c.ACCEL_DR := by
  unfold searchWindow
  split <;> rfl

theorem searchWindow_nextr (ext : Externals Plane Cand D P) (c : AccelConsts) (obs : accelobs)
    (s : ℚ) (cs : List Cand) :
    (searchWindow ext c obs s cs).2.1 = s + (c.ACCEL_USELEN : ℚ) * c.ACCEL_DR := by
  unfold searchWindow
  split <;> rfl

/-- Every logged window of a run from `s` is the body run at
`s + k * W` on some pool, with the loop guard true there. -/
theorem searchLoop_getElem_some (ext : Externals Plane Cand D P) (c : AccelConsts) (obs : accelobs)
    (fuel : ℕ) : ∀ (s : ℚ) (cs : List Cand) (k : ℕ) (w : WindowLog Plane Cand D P),
    (searchLoop ext c obs fuel s cs).windows[k]? = some w →
      (s + (k : ℚ) * ((c.ACCEL_USELEN : ℚ) * c.ACCEL_DR)) + (c.ACCEL_USELEN : ℚ) * c.ACCEL_DR
          < obs.highestbin ∧
      ∃ cs1, w = (searchWindow ext c obs
        (s + (k : ℚ) * ((c.ACCEL_USELEN : ℚ) * c.ACCEL_DR)) cs1).1 := by
  induction fuel with
  | zero =>
    intro s cs k w h
    unfold searchLoop at h
    split at h <;> simp at h
  | succ n ih =>
    intro s cs k w h
    unfold searchLoop at h
    split at h
    · rename_i hg
      cases k with
      | zero =>
        simp at h
        subst h
        simp only [Nat.cast_zero, zero_mul, add_zero]
        exact ⟨hg, cs, rfl⟩
      | succ j =>
        simp only [List.getElem?_cons_succ] at h
        have := ih _ _ j w h
        rw [searchWindow_nextr] at this
        have e : s + (c.ACCEL_USELEN : ℚ) * c.ACCEL_DR + (j : ℚ) * ((c.ACCEL_USELEN : ℚ) * c.ACCEL_DR)
            = s + ((j + 1 : ℕ) : ℚ) * ((c.ACCEL_USELEN : ℚ) * c.ACCEL_DR) := by
          push_cast; ring
        rw [e] at this
        exact this
    · simp at h

theorem searchLoop_mem (ext : Externals Plane Cand D P) (c : AccelConsts) (obs : accelobs)
    (fuel : ℕ) (s : ℚ) (cs : List Cand) (w : WindowLog Plane Cand D P)
    (h : w ∈ (searchLoop ext c obs fuel s cs).windows) :
    ∃ k : ℕ, (searchLoop ext c obs fuel s cs).windows[k]? = some w := by
  obtain ⟨k, hk, e⟩ := List.getElem_of_mem h
  exact ⟨k, by rw [List.getElem?_eq_getElem hk, e]⟩

theorem harmLoop_events (ext : Externals Plane Cand D P) (startr lastr : ℚ)
    (stage harmtosum : ℕ) (n : ℕ) : ∀ (harm : ℕ) (fundamental : Plane),
    harmtosum ≤ harm + 2 * n → harm + 2 * n < harmtosum + 2 →
      (harmLoop ext startr lastr stage harmtosum harm fundamental).1
        = (List.range n).flatMap
            (fun i => harmCalls startr lastr stage harmtosum (harm + 2 * i)) := by
  induction n with
  | zero =>
    intro harm f h1 _
    unfold harmLoop
    have : ¬ harm < harmtosum := by omega
    simp [this]
  | succ m ih =>
    intro harm f h1 h2
    unfold harmLoop
    have hlt : harm < harmtosum := by omega
    simp only [hlt, if_true]
    rw [ih (harm + 2) _ (by omega) (by omega), List.range_succ_eq_map, List.flatMap_cons,
      List.flatMap_map]
    have e : ∀ i, harm + 2 * Nat.succ i = harm + 2 + 2 * i := fun i => by omega
    simp only [harmCalls, Nat.mul_zero, Nat.add_zero, List.cons_append, List.nil_append,
      Function.comp_def, e]

theorem harmLoop_stage (ext : Externals Plane Cand D P) (startr lastr : ℚ)
    (stage : ℕ) (hs : 1 ≤ stage) (fundamental : Plane) :
    (harmLoop ext startr lastr stage (1 <<< stage) 1 fundamental).1
      = stageHarmCalls startr lastr stage := by
  have e : 2 ^ stage = 2 * 2 ^ (stage - 1) := by
    obtain ⟨t, rfl⟩ : ∃ t, stage = t + 1 := ⟨stage - 1, by omega⟩
    simp [pow_succ, Nat.mul_comm]
  rw [Nat.one_shiftLeft]
  exact harmLoop_events ext startr lastr stage (2 ^ stage) (2 ^ (stage - 1)) 1 fundamental
    (by omega) (by omega)

theorem stageLoop_done (ext : Externals Plane Cand D P) (obs : accelobs) (startr lastr : ℚ)
    (stage : ℕ) (f : Plane) (cs : List Cand) (h : ¬ (stage : ℤ) < obs.numharmstages) :
    stageLoop ext obs startr lastr stage f cs = ([], f, cs) := by
  unfold stageLoop
  simp [h]

theorem stageLoop_step (ext : Externals Plane Cand D P) (obs : accelobs) (startr lastr : ℚ)
    (stage : ℕ) (f : Plane) (cs : List Cand) (h : (stage : ℤ) < obs.numharmstages)
    (hs : 1 ≤ stage) :
    stageLoop ext obs startr lastr stage f cs
      = (stageHarmCalls startr lastr stage
          ++ Event.search_ffdotpows (harmLoop ext startr lastr stage (1 <<< stage) 1 f).2
              (2 ^ stage) cs
          :: (stageLoop ext obs startr lastr (stage + 1)
                (harmLoop ext startr lastr stage (1 <<< stage) 1 f).2
                (ext.search_ffdotpows (harmLoop ext startr lastr stage (1 <<< stage) 1 f).2
                  (2 ^ stage) cs)).1,
         (stageLoop ext obs startr lastr (stage + 1)
                (harmLoop ext startr lastr stage (1 <<< stage) 1 f).2
                (ext.search_ffdotpows (harmLoop ext startr lastr stage (1 <<< stage) 1 f).2
                  (2 ^ stage) cs)).2) := by
  conv_lhs => unfold stageLoop
  simp only [h, if_true]
  rw [harmLoop_stage ext startr lastr stage hs, Nat.one_shiftLeft]

/-- Induction along the stage loop: a property that holds when the loop is
left and is carried backwards over one stage holds at every entry point. -/
theorem stageLoop_induction (obs : accelobs) (motive : ℕ → Prop)
    (done : ∀ stage : ℕ, ¬ (stage : ℤ) < obs.numharmstages → motive stage)
    (step : ∀ stage : ℕ, (stage : ℤ) < obs.numharmstages → motive (stage + 1) → motive stage)
    (stage : ℕ) : motive stage := by
  generalize hm : (obs.numharmstages - stage).toNat = m
  induction m generalizing stage with
  | zero => exact done stage (by omega)
  | succ k ih =>
    exact step stage (by omega) (ih (stage + 1) (by omega))

theorem filter_stageHarmCalls (startr lastr : ℚ) (stage : ℕ) :
    (stageHarmCalls startr lastr stage : List (Event Plane Cand D P)).filter
        Event.isSubharmonicCall
      = stageHarmCalls startr lastr stage := by
  rw [List.filter_eq_self]
  intro e he
  simp only [stageHarmCalls, List.mem_flatMap, harmCalls, List.mem_cons] at he
  obtain ⟨i, -, h | h | h | h⟩ := he
  · subst h; rfl
  · subst h; rfl
  · subst h; rfl
  · simp at h

theorem stageLoop_subharmonic (ext : Externals Plane Cand D P) (obs : accelobs)
    (startr lastr : ℚ) (stage : ℕ) : ∀ (f : Plane) (cs : List Cand), 1 ≤ stage →
    (stageLoop ext obs startr lastr stage f cs).1.filter Event.isSubharmonicCall
      = (List.range' stage (obs.numharmstages - stage).toNat).flatMap
          (stageHarmCalls startr lastr) := by
  induction stage using stageLoop_induction obs with
  | done stage h =>
    intro f cs _
    have : (obs.numharmstages - stage).toNat = 0 := by omega
    rw [stageLoop_done ext obs startr lastr stage f cs h, this]
    rfl
  | step stage h ih =>
    intro f cs hs
    have : (obs.numharmstages - stage).toNat
        = (obs.numharmstages - ((stage + 1 : ℕ) : ℤ)).toNat + 1 := by omega
    rw [stageLoop_step ext obs startr lastr stage f cs h hs, this, List.range'_succ,
      List.flatMap_cons]
    simp only [List.filter_append, filter_stageHarmCalls, List.filter_cons,
      Event.isSubharmonicCall]
    rw [ih _ _ (by omega)]
    simp

/-- The loop body in one piece: the stage loop entered at stage 1 makes no
call when `numharmstages ≤ 1`, so the `if` around it can be dropped. -/
theorem searchWindow_eq (ext : Externals Plane Cand D P) (c : AccelConsts) (obs : accelobs)
    (s : ℚ) (cs : List Cand) :
    searchWindow ext c obs s cs
      = (⟨s, s + (c.ACCEL_USELEN : ℚ) * c.ACCEL_DR - c.ACCEL_DR,
          Event.subharm_ffdot_plane PlaneVar.fundamental 1 1 s
              (s + (c.ACCEL_USELEN : ℚ) * c.ACCEL_DR - c.ACCEL_DR) 0 0
            :: Event.search_ffdotpows
                (ext.subharm_ffdot_plane 1 1 s
                  (s + (c.ACCEL_USELEN : ℚ) * c.ACCEL_DR - c.ACCEL_DR) 0 0) 1 cs
            :: (stageLoop ext obs s (s + (c.ACCEL_USELEN : ℚ) * c.ACCEL_DR - c.ACCEL_DR) 1
                  (ext.subharm_ffdot_plane 1 1 s
                    (s + (c.ACCEL_USELEN : ℚ) * c.ACCEL_DR - c.ACCEL_DR) 0 0)
                  (ext.search_ffdotpows (ext.subharm_ffdot_plane 1 1 s
                    (s + (c.ACCEL_USELEN : ℚ) * c.ACCEL_DR - c.ACCEL_DR) 0 0) 1 cs)).1
            ++ [Event.free_ffdotpows PlaneVar.fundamental]⟩,
         s + (c.ACCEL_USELEN : ℚ) * c.ACCEL_DR,
         (stageLoop ext obs s (s + (c.ACCEL_USELEN : ℚ) * c.ACCEL_DR - c.ACCEL_DR) 1
            (ext.subharm_ffdot_plane 1 1 s
              (s + (c.ACCEL_USELEN : ℚ) * c.ACCEL_DR - c.ACCEL_DR) 0 0)
            (ext.search_ffdotpows (ext.subharm_ffdot_plane 1 1 s
              (s + (c.ACCEL_USELEN : ℚ) * c.ACCEL_DR - c.ACCEL_DR) 0 0) 1 cs)).2.2) := by
  unfold searchWindow
  split
  · simp
  · rename_i h
    rw [stageLoop_done ext obs _ _ 1 _ _ (by push_cast; omega)]

/-- Every logged window is the body run at its own `startr` on some pool. -/
theorem searchLoop_window (ext : Externals Plane Cand D P) (c : AccelConsts) (obs : accelobs)
    (fuel : ℕ) (s : ℚ) (cs : List Cand) (w : WindowLog Plane Cand D P)
    (h : w ∈ (searchLoop ext c obs fuel s cs).windows) :
    ∃ cs1, w = (searchWindow ext c obs w.startr cs1).1 := by
  obtain ⟨k, hk⟩ := searchLoop_mem ext c obs fuel s cs w h
  obtain ⟨-, cs1, e⟩ := searchLoop_getElem_some ext c obs fuel s cs k w hk
  refine ⟨cs1, ?_⟩
  have : w.startr = s + (k : ℚ) * ((c.ACCEL_USELEN : ℚ) * c.ACCEL_DR) := by
    rw [e, searchWindow_startr]
  rw [this]
  exact e

theorem stageLoop_kind (ext : Externals Plane Cand D P) (obs : accelobs)
    (startr lastr : ℚ) (stage : ℕ) : ∀ (f : Plane) (cs : List Cand), 1 ≤ stage →
    ∀ e ∈ (stageLoop ext obs startr lastr stage f cs).1,
      e.isSubharmonicCall = true ∨ ∃ p k cs1, e = Event.search_ffdotpows p k cs1 := by
  induction stage using stageLoop_induction obs with
  | done stage h =>
    intro f cs _ e he
    rw [stageLoop_done ext obs startr lastr stage f cs h] at he
    simp at he
  | step stage h ih =>
    intro f cs hs e he
    rw [stageLoop_step ext obs startr lastr stage f cs h hs] at he
    simp only [List.mem_append, List.mem_cons] at he
    rcases he with he | he | he
    · left
      rw [← filter_stageHarmCalls, List.mem_filter] at he
      exact he.2
    · exact Or.inr ⟨_, _, _, he⟩
    · exact ih _ _ (by omega) e he

theorem mem_stageHarmCalls_bounds (startr lastr : ℚ) (stage : ℕ) (dst : PlaneVar)
    (n h : ℕ) (a b : ℚ) (st idx : ℕ)
    (he : Event.subharm_ffdot_plane dst n h a b st idx
      ∈ (stageHarmCalls startr lastr stage : List (Event Plane Cand D P))) :
    a = startr ∧ b = lastr := by
  simp only [stageHarmCalls, List.mem_flatMap, harmCalls, List.mem_cons] at he
  obtain ⟨i, -, h | h | h | h⟩ := he
  · injection h with _ _ _ h4 h5
    exact ⟨h4, h5⟩
  · cases h
  · cases h
  · simp at h

/-- Every plane computed during an iteration is computed over the
iteration's own `startr` and `lastr`. -/
theorem searchWindow_plane_bounds (ext : Externals Plane Cand D P) (c : AccelConsts)
    (obs : accelobs) (s : ℚ) (cs : List Cand) (dst : PlaneVar) (n h : ℕ) (a b : ℚ)
    (st idx : ℕ)
    (he : Event.subharm_ffdot_plane dst n h a b st idx
      ∈ (searchWindow ext c obs s cs).1.events) :
    a = s ∧ b = s + (c.ACCEL_USELEN : ℚ) * c.ACCEL_DR - c.ACCEL_DR := by
  rw [searchWindow_eq] at he
  simp only [List.mem_cons, List.mem_append, List.mem_singleton] at he
  rcases he with (he | he | he) | he
  · injection he with _ _ _ h4 h5
    exact ⟨h4, h5⟩
  · cases he
  · have hk := stageLoop_kind ext obs _ _ 1 _ _ (le_refl 1) _ he
    have hf : Event.subharm_ffdot_plane dst n h a b st idx
        ∈ ((stageLoop ext obs s (s + (c.ACCEL_USELEN : ℚ) * c.ACCEL_DR - c.ACCEL_DR) 1
            (ext.subharm_ffdot_plane 1 1 s
              (s + (c.ACCEL_USELEN : ℚ) * c.ACCEL_DR - c.ACCEL_DR) 0 0)
            (ext.search_ffdotpows (ext.subharm_ffdot_plane 1 1 s
              (s + (c.ACCEL_USELEN : ℚ) * c.ACCEL_DR - c.ACCEL_DR) 0 0) 1 cs)).1.filter
              Event.isSubharmonicCall) := by
      rw [List.mem_filter]
      refine ⟨he, ?_⟩
      rcases hk with hk | ⟨p, k, cs1, hk⟩
      · exact hk
      · cases hk
    rw [stageLoop_subharmonic ext obs _ _ 1 _ _ (le_refl 1), List.mem_flatMap] at hf
    obtain ⟨t, -, ht⟩ := hf
    exact mem_stageHarmCalls_bounds _ _ t dst n h a b st idx ht
  · simp at he

theorem PoolChained.next (ext : Externals Plane Cand D P) :
    ∀ (calls : List (Plane × ℕ × List Cand)) (c0 c1 : List Cand),
      PoolChained ext c0 calls c1 →
      ∀ (i : ℕ) (a b : Plane × ℕ × List Cand), calls[i]? = some a → calls[i + 1]? = some b →
        b.2.2 = ext.search_ffdotpows a.1 a.2.1 a.2.2 := by
  intro calls
  induction calls with
  | nil => intro c0 c1 _ i a b ha; simp at ha
  | cons x rest ih =>
    intro c0 c1 hc i a b ha hb
    obtain ⟨-, hrest⟩ := hc
    cases i with
    | zero =>
      simp only [List.getElem?_cons_zero, Option.some.injEq] at ha
      simp only [List.getElem?_cons_succ] at hb
      subst ha
      cases rest with
      | nil => simp at hb
      | cons y more =>
        simp only [List.getElem?_cons_zero, Option.some.injEq] at hb
        subst hb
        exact hrest.1
    | succ j =>
      simp only [List.getElem?_cons_succ] at ha hb
      exact ih _ _ hrest j a b ha hb

theorem PoolChained.append (ext : Externals Plane Cand D P) :
    ∀ (xs ys : List (Plane × ℕ × List Cand)) (c0 c1 c2 : List Cand),
      PoolChained ext c0 xs c1 → PoolChained ext c1 ys c2 →
        PoolChained ext c0 (xs ++ ys) c2 := by
  intro xs
  induction xs with
  | nil =>
    intro ys c0 c1 c2 h1 h2
    simp only [PoolChained] at h1
    subst h1
    exact h2
  | cons x rest ih =>
    intro ys c0 c1 c2 h1 h2
    exact ⟨h1.1, ih ys _ c1 c2 h1.2 h2⟩

/-- The calls of one iteration, in terms of the stage loop. -/
theorem searchWindow_events (ext : Externals Plane Cand D P) (c : AccelConsts)
    (obs : accelobs) (s : ℚ) (cs : List Cand) :
    (searchWindow ext c obs s cs).1.events
      = Event.subharm_ffdot_plane PlaneVar.fundamental 1 1 s
            (s + (c.ACCEL_USELEN : ℚ) * c.ACCEL_DR - c.ACCEL_DR) 0 0
        :: Event.search_ffdotpows
            (ext.subharm_ffdot_plane 1 1 s
              (s + (c.ACCEL_USELEN : ℚ) * c.ACCEL_DR - c.ACCEL_DR) 0 0) 1 cs
        :: ((stageLoop ext obs s (s + (c.ACCEL_USELEN : ℚ) * c.ACCEL_DR - c.ACCEL_DR) 1
              (ext.subharm_ffdot_plane 1 1 s
                (s + (c.ACCEL_USELEN : ℚ) * c.ACCEL_DR - c.ACCEL_DR) 0 0)
              (ext.search_ffdotpows (ext.subharm_ffdot_plane 1 1 s
                (s + (c.ACCEL_USELEN : ℚ) * c.ACCEL_DR - c.ACCEL_DR) 0 0) 1 cs)).1
            ++ [Event.free_ffdotpows PlaneVar.fundamental]) := by
  rw [searchWindow_eq]
  rfl

theorem optimizeLoop_length (ext : Externals Plane Cand D P) (l : List Cand) :
    optimizeLoop ext l.length l
      = Except.ok (l.map Event.optimize_accelcand, l.map ext.optimize_accelcand) := by
  induction l with
  | nil => rfl
  | cons x rest ih =>
    simp only [List.length_cons, optimizeLoop, ih, List.map_cons]

theorem calcPropsLoop_length (ext : Externals Plane Cand D P) (l : List Cand) :
    ∀ ii : ℕ, calcPropsLoop ext l.length ii l
      = Except.ok ((l.enumFrom ii).map (fun x =>
            Event.calc_props (ext.derivs x.2 0) (ext.hirs x.2 0) (ext.hizs x.2 0) 0 x.1),
          l.map (fun cand =>
            ext.calc_props (ext.derivs cand 0) (ext.hirs cand 0) (ext.hizs cand 0) 0)) := by
  induction l with
  | nil => intro ii; rfl
  | cons x rest ih =>
    intro ii
    simp only [List.length_cons, calcPropsLoop, ih, List.map_cons, List.enumFrom_cons]

theorem liveFrom_append (st : ℤ × ℤ) (a b : List (Event Plane Cand D P)) :
    liveFrom st (a ++ b) = liveFrom (liveFrom st a) b := by
  simp [liveFrom, List.foldl_append]

theorem LiveBounded_append (a b : List (Event Plane Cand D P)) :
    ∀ st : ℤ × ℤ, LiveBounded st a → LiveBounded (liveFrom st a) b →
      LiveBounded st (a ++ b) := by
  induction a with
  | nil => intro st _ hb; exact hb
  | cons e es ih =>
    intro st ha hb
    exact ⟨ha.1, ih _ ha.2 hb⟩

theorem LiveBounded_take (evs : List (Event Plane Cand D P)) :
    ∀ (st : ℤ × ℤ) (k : ℕ), AtMostOneEach st → LiveBounded st evs →
      AtMostOneEach (liveFrom st (evs.take k)) := by
  induction evs with
  | nil => intro st k h0 _; simpa [liveFrom] using h0
  | cons e es ih =>
    intro st k h0 h
    cases k with
    | zero => simpa [liveFrom] using h0
    | succ j => exact ih _ j h.1 h.2

theorem startsWithFree_append (a b : List (Event Plane Cand D P))
    (h : startsWithFree a = true) : startsWithFree (a ++ b) = true := by
  cases a with
  | nil => cases h
  | cons e es =>
    cases e <;> first | cases h | skip
    rename_i v
    cases v <;> first | rfl | cases h

theorem startsWithAddFree_append (n h : ℕ) (a b : List (Event Plane Cand D P))
    (hs : startsWithAddFree n h a = true) : startsWithAddFree n h (a ++ b) = true := by
  cases a with
  | nil => cases hs
  | cons e es =>
    cases e <;> first | cases hs | skip
    simp only [startsWithAddFree, Bool.and_eq_true, List.cons_append] at hs ⊢
    exact ⟨hs.1, startsWithFree_append es b hs.2⟩

theorem releasedAtOnce_append (a b : List (Event Plane Cand D P)) :
    releasedAtOnce a = true → releasedAtOnce b = true → releasedAtOnce (a ++ b) = true := by
  induction a with
  | nil => intro _ hb; exact hb
  | cons e es ih =>
    intro ha hb
    cases e with
    | subharm_ffdot_plane dst n h x y st idx =>
      cases dst with
      | fundamental => exact ih ha hb
      | subharmonic =>
        simp only [releasedAtOnce, Bool.and_eq_true, List.cons_append] at ha ⊢
        exact ⟨startsWithAddFree_append n h es b ha.1, ih ha.2 hb⟩
    | add_ffdotpows n h =>
      simp only [releasedAtOnce, Bool.and_eq_true, List.cons_append] at ha ⊢
      exact ⟨startsWithFree_append es b ha.1, ih ha.2 hb⟩
    | _ => exact ih ha hb

theorem releasedAtOnce_suffix (a b : List (Event Plane Cand D P)) :
    releasedAtOnce (a ++ b) = true → releasedAtOnce b = true := by
  induction a with
  | nil => intro h; exact h
  | cons e es ih =>
    intro h
    cases e with
    | subharm_ffdot_plane dst n h x y st idx =>
      cases dst with
      | fundamental => exact ih h
      | subharmonic =>
        simp only [releasedAtOnce, Bool.and_eq_true, List.cons_append] at h
        exact ih h.2
    | add_ffdotpows n h =>
      simp only [releasedAtOnce, Bool.and_eq_true, List.cons_append] at h
      exact ih h.2
    | _ => exact ih h

theorem startsWithFree_eq (l : List (Event Plane Cand D P)) (h : startsWithFree l = true) :
    ∃ rest, l = Event.free_ffdotpows PlaneVar.subharmonic :: rest := by
  cases l with
  | nil => cases h
  | cons e es =>
    cases e <;> first | cases h | skip
    rename_i v
    cases v
    · cases h
    · exact ⟨es, rfl⟩

theorem startsWithAddFree_eq (n h : ℕ) (l : List (Event Plane Cand D P))
    (hs : startsWithAddFree n h l = true) :
    ∃ rest, l = Event.add_ffdotpows n h :: Event.free_ffdotpows PlaneVar.subharmonic :: rest := by
  cases l with
  | nil => cases hs
  | cons e es =>
    cases e <;> first | cases hs | skip
    simp only [startsWithAddFree, Bool.and_eq_true, decide_eq_true_eq] at hs
    obtain ⟨⟨h1, h2⟩, h3⟩ := hs
    obtain ⟨rest, hr⟩ := startsWithFree_eq es h3
    exact ⟨rest, by rw [h1, h2, hr]⟩

theorem liveFrom_harmBlocks (startr lastr : ℚ) (stage harmtosum : ℕ) (l : List ℕ)
    (hf : ℕ → ℕ) (x : ℤ) :
    liveFrom (x, 0) (l.flatMap (fun i => (harmCalls startr lastr stage harmtosum (hf i) :
      List (Event Plane Cand D P)))) = (x, 0) := by
  induction l with
  | nil => rfl
  | cons i rest ih =>
    rw [List.flatMap_cons, liveFrom_append]
    have : liveFrom (x, 0) (harmCalls startr lastr stage harmtosum (hf i) :
        List (Event Plane Cand D P)) = (x, 0) := by
      simp [liveFrom, harmCalls, liveStep]
    rw [this, ih]

theorem LiveBounded_harmBlocks (startr lastr : ℚ) (stage harmtosum : ℕ) (l : List ℕ)
    (hf : ℕ → ℕ) :
    LiveBounded (1, 0) (l.flatMap (fun i => (harmCalls startr lastr stage harmtosum (hf i) :
      List (Event Plane Cand D P)))) := by
  induction l with
  | nil => trivial
  | cons i rest ih =>
    rw [List.flatMap_cons]
    apply LiveBounded_append
    · simp [harmCalls, LiveBounded, liveStep, AtMostOneEach]
    · have : liveFrom (1, 0) (harmCalls startr lastr stage harmtosum (hf i) :
          List (Event Plane Cand D P)) = (1, 0) := by
        simp [liveFrom, harmCalls, liveStep]
      rw [this]
      exact ih

theorem releasedAtOnce_harmBlocks (startr lastr : ℚ) (stage harmtosum : ℕ) (l : List ℕ)
    (hf : ℕ → ℕ) :
    releasedAtOnce (l.flatMap (fun i => (harmCalls startr lastr stage harmtosum (hf i) :
      List (Event Plane Cand D P)))) = true := by
  induction l with
  | nil => rfl
  | cons i rest ih =>
    rw [List.flatMap_cons]
    apply releasedAtOnce_append _ _ _ ih
    simp [harmCalls, releasedAtOnce, startsWithAddFree, startsWithFree]

/-- Along the stage loop the fundamental plane stays live, at most one
harmonic plane is live and it is released right after it is combined. -/
theorem stageLoop_lifetime (ext : Externals Plane Cand D P) (obs : accelobs)
    (startr lastr : ℚ) (stage : ℕ) : ∀ (f : Plane) (cs : List Cand), 1 ≤ stage →
    LiveBounded (1, 0) (stageLoop ext obs startr lastr stage f cs).1 ∧
    liveFrom (1, 0) (stageLoop ext obs startr lastr stage f cs).1 = (1, 0) ∧
    releasedAtOnce (stageLoop ext obs startr lastr stage f cs).1 = true := by
  induction stage using stageLoop_induction obs with
  | done stage h =>
    intro f cs _
    rw [stageLoop_done ext obs startr lastr stage f cs h]
    exact ⟨trivial, rfl, rfl⟩
  | step stage h ih =>
    intro f cs hs
    rw [stageLoop_step ext obs startr lastr stage f cs h hs]
    obtain ⟨h1, h2, h3⟩ := ih (harmLoop ext startr lastr stage (1 <<< stage) 1 f).2
      (ext.search_ffdotpows (harmLoop ext startr lastr stage (1 <<< stage) 1 f).2
        (2 ^ stage) cs) (by omega)
    have hl : liveFrom (1, 0) (stageHarmCalls startr lastr stage :
        List (Event Plane Cand D P)) = (1, 0) := liveFrom_harmBlocks _ _ _ _ _ _ 1
    refine ⟨?_, ?_, ?_⟩
    · apply LiveBounded_append
      · exact LiveBounded_harmBlocks _ _ _ _ _ _
      · rw [hl]
        exact ⟨by simp [liveStep, AtMostOneEach], h1⟩
    · rw [liveFrom_append, hl]
      exact h2
    · apply releasedAtOnce_append
      · exact releasedAtOnce_harmBlocks _ _ _ _ _ _
      · exact h3

/-- One iteration starts and ends with no plane live. -/
theorem searchWindow_lifetime (ext : Externals Plane Cand D P) (c : AccelConsts)
    (obs : accelobs) (s : ℚ) (cs : List Cand) :
    LiveBounded (0, 0) (searchWindow ext c obs s cs).1.events ∧
    liveFrom (0, 0) (searchWindow ext c obs s cs).1.events = (0, 0) ∧
    releasedAtOnce (searchWindow ext c obs s cs).1.events = true := by
  rw [searchWindow_events]
  obtain ⟨h1, h2, h3⟩ := stageLoop_lifetime ext obs s
    (s + (c.ACCEL_USELEN : ℚ) * c.ACCEL_DR - c.ACCEL_DR) 1
    (ext.subharm_ffdot_plane 1 1 s (s + (c.ACCEL_USELEN : ℚ) * c.ACCEL_DR - c.ACCEL_DR) 0 0)
    (ext.search_ffdotpows (ext.subharm_ffdot_plane 1 1 s
      (s + (c.ACCEL_USELEN : ℚ) * c.ACCEL_DR - c.ACCEL_DR) 0 0) 1 cs) (le_refl 1)
  refine ⟨⟨by simp [liveStep, AtMostOneEach], by simp [liveStep, AtMostOneEach], ?_⟩, ?_, ?_⟩
  · apply LiveBounded_append
    · exact h1
    · show LiveBounded (liveFrom (1, 0) _) _
      rw [h2]
      simp [LiveBounded, liveStep, AtMostOneEach]
  · show liveFrom (1, 0) (_ ++ _) = (0, 0)
    rw [liveFrom_append, h2]
    rfl
  · show releasedAtOnce (_ ++ _) = true
    exact releasedAtOnce_append _ _ h3 rfl

/-- A scan is a sequence of whole iterations: no plane is live between
them, at most one of each kind within them. -/
theorem scanEvents_lifetime (ext : Externals Plane Cand D P) (c : AccelConsts)
    (obs : accelobs) (ws : List (WindowLog Plane Cand D P))
    (hws : ∀ w ∈ ws, ∃ s cs, w = (searchWindow ext c obs s cs).1) :
    LiveBounded (0, 0) (scanEvents ws) ∧ liveFrom (0, 0) (scanEvents ws) = (0, 0) ∧
      releasedAtOnce (scanEvents ws) = true := by
  induction ws with
  | nil => exact ⟨trivial, rfl, rfl⟩
  | cons w rest ih =>
    obtain ⟨s, cs, hw⟩ := hws w (List.mem_cons_self _ _)
    obtain ⟨h1, h2, h3⟩ := ih (fun w1 hw1 => hws w1 (List.mem_cons_of_mem _ hw1))
    obtain ⟨g1, g2, g3⟩ := searchWindow_lifetime ext c obs s cs
    have e : scanEvents (w :: rest) = w.events ++ scanEvents rest := by
      simp [scanEvents]
    rw [e, hw]
    refine ⟨LiveBounded_append _ _ _ g1 (by rw [g2]; exact h1), ?_,
      releasedAtOnce_append _ _ g3 h3⟩
    rw [liveFrom_append, g2]
    exact h2

/-- C3: no scanned window extends past `highestbin`.  With `ACCEL_DR > 0`,
every call of `subharm_ffdot_plane` made by the search loop is made over
the `startr` and `lastr` of its window, with `rlo ≤ startr`,
`lastr < highestbin` and even `startr + W < highestbin`. -/
theorem scanned_windows_below_highestbin (ext : Externals Plane Cand D P) (c : AccelConsts)
    (obs : accelobs) (hDR : 0 < c.ACCEL_DR) (fuel : ℕ) (w : WindowLog Plane Cand D P)
    (hw : w ∈ (searchLoop ext c obs fuel obs.rlo []).windows)
    (dst : PlaneVar) (n h : ℕ) (a b : ℚ) (st idx : ℕ)
    (he : Event.subharm_ffdot_plane dst n h a b st idx ∈ w.events) :
    a = w.startr ∧ b = w.lastr ∧ obs.rlo ≤ a ∧ b < obs.highestbin ∧
      a + (c.ACCEL_USELEN : ℚ) * c.ACCEL_DR < obs.highestbin := by
  obtain ⟨k, hk⟩ := searchLoop_mem ext c obs fuel obs.rlo [] w hw
  obtain ⟨hg, cs1, e⟩ := searchLoop_getElem_some ext c obs fuel obs.rlo [] k w hk
  have hs : w.startr = obs.rlo + (k : ℚ) * ((c.ACCEL_USELEN : ℚ) * c.ACCEL_DR) := by
    rw [e, searchWindow_startr]
  have hl : w.lastr = w.startr + (c.ACCEL_USELEN : ℚ) * c.ACCEL_DR - c.ACCEL_DR := by
    rw [hs, e, searchWindow_lastr]
  rw [e] at he
  obtain ⟨ha, hb⟩ := searchWindow_plane_bounds ext c obs _ cs1 dst n h a b st idx he
  have hW : 0 ≤ (k : ℚ) * ((c.ACCEL_USELEN : ℚ) * c.ACCEL_DR) := by positivity
  refine ⟨by rw [hs, ha], by rw [hl, hs, hb], ?_, ?_, ?_⟩
  · rw [ha]; linarith
  · rw [hb]; linarith
  · rw [ha]; exact hg

/-- Witness for C3: the first window of a scan from 0 to 10 with
`ACCEL_USELEN = 4` and `ACCEL_DR = 1`. -/
theorem scanned_windows_below_highestbin_witness :
    (0 : ℚ) = 0 ∧ (3 : ℚ) = 3 ∧ (0 : ℚ) ≤ 0 ∧ (3 : ℚ) < 10 ∧
      (0 : ℚ) + ((4 : ℕ) : ℚ) * 1 < 10 :=
  scanned_windows_below_highestbin unitExt ⟨4, 1⟩ ⟨0, 10, 1⟩ (by norm_num) 5
    ⟨0, 3, [Event.subharm_ffdot_plane PlaneVar.fundamental 1 1 0 3 0 0,
      Event.search_ffdotpows () 1 [], Event.free_ffdotpows PlaneVar.fundamental]⟩
    (by norm_num [searchLoop, searchWindow, unitExt])
    PlaneVar.fundamental 1 1 0 3 0 0 (by simp)

/-- C7: on a pool that is not empty, and with `sort_accelcands` returning
as many candidates as it was given, the refinement block calls
`optimize_accelcand` once on each pooled candidate in pool order, then
`sort_accelcands` once on the optimised pool, then `calc_props` once on
element 0 of `derivs`, `hirs`, `hizs` of each candidate of the sorted pool
in sorted order; the records and the pool it hands to the output routines
are those of the reference definition `refinementSpec`, one record per
candidate. -/
theorem refinement_matches_reference (ext : Externals Plane Cand D P) (pool : List Cand)
    (hne : pool ≠ [])
    (hlen : (ext.sort_accelcands (pool.map ext.optimize_accelcand)).length = pool.length) :
    refineBlock ext pool
      = Except.ok
          ⟨pool.map Event.optimize_accelcand
            ++ Event.sort_accelcands (pool.map ext.optimize_accelcand)
            :: ((refinementSpec ext pool).2.enumFrom 0).map (fun x =>
                Event.calc_props (ext.derivs x.2 0) (ext.hirs x.2 0) (ext.hizs x.2 0) 0 x.1)
            ++ [Event.output_fundamentals (refinementSpec ext pool).1 (refinementSpec ext pool).2,
                Event.output_harmonics (refinementSpec ext pool).2,
                Event.chkfwrite (refinementSpec ext pool).1 pool.length],
           (refinementSpec ext pool).2, (refinementSpec ext pool).1⟩ ∧
      (refinementSpec ext pool).1.length = pool.length := by
  constructor
  · unfold refineBlock
    have h0 : pool.length ≠ 0 := by
      intro h
      exact hne (List.length_eq_zero.mp h)
    simp only [h0, ne_eq, not_false_eq_true, if_true, optimizeLoop_length]
    rw [← hlen, calcPropsLoop_length]
    rfl
  · simp only [refinementSpec, List.length_map]
    exact hlen

/-- Witness for C7: a pool of two candidates. -/
theorem refinement_matches_reference_witness :
    ([3, 5] : List ℕ) ≠ [] ∧
      (refinementSpec unitExt [3, 5]).1.length = ([3, 5] : List ℕ).length :=
  ⟨by simp, (refinement_matches_reference unitExt [3, 5] (by simp) rfl).2⟩

/-- C9: counting each `subharm_ffdot_plane` call as the acquisition of a
plane by the variable it is assigned to and each `free_ffdotpows` call as
the release of the plane of its argument, for every `numharmstages` and
after any number of iterations of the search loop: after every call of the
scan at most one fundamental plane and at most one harmonic plane are live;
every `add_ffdotpows` is followed at once by the release of the harmonic
plane, and every computation of a harmonic plane by its `add_ffdotpows` and
that release; and after any number of whole windows, the last included, no
plane is live. -/
theorem plane_lifetime (ext : Externals Plane Cand D P) (c : AccelConsts) (obs : accelobs)
    (fuel : ℕ) :
    (∀ k : ℕ, AtMostOneEach
      (liveFrom (0, 0) ((scanEvents (searchLoop ext c obs fuel obs.rlo []).windows).take k))) ∧
    (∀ (pre post : List (Event Plane Cand D P)) (n h : ℕ),
      scanEvents (searchLoop ext c obs fuel obs.rlo []).windows
          = pre ++ Event.add_ffdotpows n h :: post →
        ∃ rest, post = Event.free_ffdotpows PlaneVar.subharmonic :: rest) ∧
    (∀ (pre post : List (Event Plane Cand D P)) (n h : ℕ) (a b : ℚ) (st idx : ℕ),
      scanEvents (searchLoop ext c obs fuel obs.rlo []).windows
          = pre ++ Event.subharm_ffdot_plane PlaneVar.subharmonic n h a b st idx :: post →
        ∃ rest, post = Event.add_ffdotpows n h
          :: Event.free_ffdotpows PlaneVar.subharmonic :: rest) ∧
    (∀ j : ℕ, liveFrom (0, 0)
      (scanEvents ((searchLoop ext c obs fuel obs.rlo []).windows.take j)) = (0, 0)) := by
  have hws : ∀ w ∈ (searchLoop ext c obs fuel obs.rlo []).windows,
      ∃ s cs, w = (searchWindow ext c obs s cs).1 := by
    intro w hw
    obtain ⟨cs1, e⟩ := searchLoop_window ext c obs fuel obs.rlo [] w hw
    exact ⟨_, cs1, e⟩
  obtain ⟨h1, -, h3⟩ := scanEvents_lifetime ext c obs _ hws
  refine ⟨?_, ?_, ?_, ?_⟩
  · intro k
    exact LiveBounded_take _ _ k (by simp [AtMostOneEach]) h1
  · intro pre post n h e
    rw [e] at h3
    have := releasedAtOnce_suffix _ _ h3
    simp only [releasedAtOnce, Bool.and_eq_true] at this
    exact startsWithFree_eq post this.1
  · intro pre post n h a b st idx e
    rw [e] at h3
    have := releasedAtOnce_suffix _ _ h3
    simp only [releasedAtOnce, Bool.and_eq_true] at this
    exact startsWithAddFree_eq n h post this.1
  · intro j
    exact (scanEvents_lifetime ext c obs _
      (fun w hw => hws w (List.mem_of_mem_take hw))).2.1

end Proofs

end Mmaccelsearch
